import Mathlib

/-!
Verification of the `concurrentmap` package (RedisSlowlogsParser repository).

The Go source (`src/concurrentmap/concurrentmap.go`) wraps a native Go map
`map[interface{}]interface{}` behind a reader/writer lock.  We verify the
single-threaded, sequential contract of the operations: the lock only
serialises accesses, so under single-threaded sequencing every operation is
the corresponding pure map operation.

Embedding choices:
* the Go map is embedded as an association list with pairwise-distinct keys
  (Go maps structurally hold at most one binding per key);
* each mutating operation takes the map and returns the result together with
  the updated map (explicit state passing);
* Go map iteration order is unspecified and may differ between two `range`
  loops over the same map, so the iterating operations (`Range`, `Keys`,
  `Values`) are modelled over an iteration order `ord`, an arbitrary
  permutation of the entries;
* `Get` returns `Option V`: `some v` embeds Go's `(v, true)` and `none`
  embeds `(nil, false)`; the Go `found` flag is `(Get m k).isSome`.
-/

set_option linter.unusedSectionVars false

namespace ConcurrentMap

variable {K V : Type}

/-- Go map lookup `value, found = m.items[key]`: the value bound to `k`,
scanning the bindings in order. -/
def mapLookup [DecidableEq K] : List (K × V) → K → Option V
  | [], _ => none
  | p :: rest, k => if p.1 = k then some p.2 else mapLookup rest k

/-- Go map update `m.items[key] = value`: overwrite the binding of `k` if it
exists, otherwise add a new binding. -/
def mapInsert [DecidableEq K] : List (K × V) → K → V → List (K × V)
  | [], k, v => [(k, v)]
  | p :: rest, k, v => if p.1 = k then (k, v) :: rest else p :: mapInsert rest k v

/-- Go map deletion `delete(m.items, key)`: remove the binding of `k` (a no-op
when `k` is unbound). -/
def mapDelete [DecidableEq K] : List (K × V) → K → List (K × V)
  | [], _ => []
  | p :: rest, k => if p.1 = k then rest else p :: mapDelete rest k

section ListLemmas

variable [DecidableEq K]

theorem mapLookup_eq_none_iff (l : List (K × V)) (k : K) :
    mapLookup l k = none ↔ k ∉ l.map Prod.fst := by
  induction l with
  | nil => simp [mapLookup]
  | cons p rest ih =>
    by_cases h : p.1 = k <;> simp [mapLookup, h, ih, Ne.symm]

theorem mapLookup_mapInsert_self (l : List (K × V)) (k : K) (v : V) :
    mapLookup (mapInsert l k v) k = some v := by
  induction l with
  | nil => simp [mapInsert, mapLookup]
  | cons p rest ih =>
    by_cases h : p.1 = k <;> simp [mapInsert, h, mapLookup, ih]

theorem mapLookup_mapInsert_ne (l : List (K × V)) {k q : K} (v : V)
    (h : q ≠ k) : mapLookup (mapInsert l k v) q = mapLookup l q := by
  induction l with
  | nil => simp [mapInsert, mapLookup, Ne.symm h]
  | cons p rest ih =>
    by_cases hp : p.1 = k
    · have hk : k ≠ q := fun hx => h hx.symm
      have hpq : p.1 ≠ q := fun hx => hk (hp.symm.trans hx)
      simp [mapInsert, hp, mapLookup, hk, hpq]
    · simp only [mapInsert, if_neg hp, mapLookup]
      by_cases hq : p.1 = q <;> simp [hq, ih]

theorem mapLookup_mapDelete_ne (l : List (K × V)) {k q : K}
    (h : q ≠ k) : mapLookup (mapDelete l k) q = mapLookup l q := by
  induction l with
  | nil => simp [mapDelete]
  | cons p rest ih =>
    by_cases hp : p.1 = k
    · have hk : k ≠ q := fun hx => h hx.symm
      have hpq : p.1 ≠ q := fun hx => hk (hp.symm.trans hx)
      simp [mapDelete, hp, mapLookup, hpq, hk]
    · simp only [mapDelete, if_neg hp, mapLookup]
      by_cases hq : p.1 = q <;> simp [hq, ih]

theorem mapLookup_mapDelete_self (l : List (K × V)) (k : K)
    (hnd : (l.map Prod.fst).Nodup) : mapLookup (mapDelete l k) k = none := by
  induction l with
  | nil => simp [mapDelete, mapLookup]
  | cons p rest ih =>
    simp only [List.map_cons, List.nodup_cons] at hnd
    by_cases hp : p.1 = k
    · simp only [mapDelete, if_pos hp]
      rw [mapLookup_eq_none_iff]
      exact hp ▸ hnd.1
    · simp [mapDelete, hp, mapLookup, ih hnd.2]

theorem mem_keys_mapInsert (l : List (K × V)) (k a : K) (v : V) :
    a ∈ (mapInsert l k v).map Prod.fst ↔ a ∈ l.map Prod.fst ∨ a = k := by
  induction l with
  | nil => simp [mapInsert]
  | cons p rest ih =>
    by_cases hp : p.1 = k
    · subst hp
      simp [mapInsert]
      tauto
    · simp [mapInsert, hp, ih]
      tauto

theorem nodup_keys_mapInsert (l : List (K × V)) (k : K) (v : V)
    (hnd : (l.map Prod.fst).Nodup) : ((mapInsert l k v).map Prod.fst).Nodup := by
  induction l with
  | nil => simp [mapInsert]
  | cons p rest ih =>
    simp only [List.map_cons, List.nodup_cons] at hnd
    by_cases hp : p.1 = k
    · simp only [mapInsert, if_pos hp, List.map_cons, List.nodup_cons]
      exact ⟨hp ▸ hnd.1, hnd.2⟩
    · simp only [mapInsert, if_neg hp, List.map_cons, List.nodup_cons]
      refine ⟨?_, ih hnd.2⟩
      rw [mem_keys_mapInsert]
      rintro (h | h)
      · exact hnd.1 h
      · exact hp h

theorem mapDelete_sublist (l : List (K × V)) (k : K) :
    (mapDelete l k).Sublist l := by
  induction l with
  | nil => simp [mapDelete]
  | cons p rest ih =>
    by_cases hp : p.1 = k
    · simp only [mapDelete, if_pos hp]
      exact List.sublist_cons_self p rest
    · simp only [mapDelete, if_neg hp]
      exact ih.cons₂ p

theorem nodup_keys_mapDelete (l : List (K × V)) (k : K)
    (hnd : (l.map Prod.fst).Nodup) : ((mapDelete l k).map Prod.fst).Nodup :=
  ((mapDelete_sublist l k).map Prod.fst).nodup hnd

end ListLemmas

/-- The `Map` struct of the source.  The `mu sync.RWMutex` field only
serialises accesses and has no sequential behaviour, so it is not part of the
state; `nodupKeys` records the structural guarantee of Go maps that a key is
bound at most once. -/
structure Map (K V : Type) where
  items : List (K × V)
  nodupKeys : (items.map Prod.fst).Nodup

variable [DecidableEq K]

/-- `New()`: a fresh empty map. -/
def New : Map K V := ⟨[], List.nodup_nil⟩

/-- `Get(key)`: `some v` means Go's `(v, true)`, `none` means `(nil, false)`. -/
def Get (m : Map K V) (k : K) : Option V := mapLookup m.items k

/-- `Contains(key)`: calls `Get` and returns its `found` component. -/
def Contains (m : Map K V) (k : K) : Bool := (Get m k).isSome

/-- `Put(key, value)`: stores the binding and returns the stored value
(together with the updated map state). -/
def Put (m : Map K V) (k : K) (v : V) : V × Map K V :=
  (v, ⟨mapInsert m.items k v, nodup_keys_mapInsert m.items k v m.nodupKeys⟩)

/-- `Remove(key)`: `Get` first; only when found, delete the binding. -/
def Remove (m : Map K V) (k : K) : Bool × Map K V :=
  match Get m k with
  | some _ => (true, ⟨mapDelete m.items k, nodup_keys_mapDelete m.items k m.nodupKeys⟩)
  | none => (false, m)

/-- `Size()`: the number of bindings, `len(m.items)`. -/
def Size (m : Map K V) : Nat := m.items.length

/-- `Clear()`: replaces the internal container with a fresh empty one. -/
def Clear (_ : Map K V) : Map K V := New

/-- `ComputeIfAbsent(key, compFunction)`: `Get`, and on a miss `Put` the value
computed by `compFunction`; the Boolean result is `!found`. -/
def ComputeIfAbsent (m : Map K V) (k : K) (f : K → V) : (V × Bool) × Map K V :=
  match Get m k with
  | some value => ((value, false), m)
  | none =>
    let p := Put m k (f k)
    ((p.1, true), p.2)

/-- `ComputeIfAbsent` instrumented with an invocation counter for
`compFunction`: the mapping function threads a counter (see `counting`), so
the final counter records how many times it was invoked. -/
def ComputeIfAbsentTraced (m : Map K V) (k : K) (f : K → Nat → V × Nat)
    (calls : Nat) : ((V × Bool) × Map K V) × Nat :=
  match Get m k with
  | some value => (((value, false), m), calls)
  | none =>
    let r := f k calls
    let p := Put m k r.1
    (((p.1, true), p.2), r.2)

/-- Wraps a mapping function so that each invocation increments a counter. -/
def counting (f : K → V) : K → Nat → V × Nat := fun k n => (f k, n + 1)

/-- `ComputeIfAbsent` when `compFunction` may fail (a panic in Go).  In the
source, `compFunction(key)` is evaluated before the call `m.Put(key, ...)`
starts, and the package installs no `recover`, so a failure propagates to the
caller unmodified and `Put` is never entered: the map is left unchanged. -/
def ComputeIfAbsentExc {E : Type} (m : Map K V) (k : K) (f : K → Except E V) :
    Except E (V × Bool) × Map K V :=
  match Get m k with
  | some value => (Except.ok (value, false), m)
  | none =>
    match f k with
    | Except.error e => (Except.error e, m)
    | Except.ok v =>
      let p := Put m k v
      (Except.ok (p.1, true), p.2)

/-- `Keys()` run with iteration order `ord` (a permutation of the entries):
the loop appends each visited key to an initially empty slice. -/
def Keys (ord : List (K × V)) : List K :=
  ord.foldl (fun result p => result ++ [p.1]) []

/-- `Values()` run with iteration order `ord` (a permutation of the entries):
the loop appends each visited value to an initially empty slice. -/
def Values (ord : List (K × V)) : List V :=
  ord.foldl (fun result p => result ++ [p.2]) []

/-- `Range(action)` run with iteration order `ord`: returns the list of
entries on which `action` was invoked, in order.  The loop breaks as soon as
`action` returns `false`, so the entry that returned `false` is the last
entry visited. -/
def RangeVisits (ord : List (K × V)) (action : K → V → Bool) : List (K × V) :=
  match ord with
  | [] => []
  | p :: rest =>
    if action p.1 p.2 then p :: RangeVisits rest action else [p]

/-- A concrete two-entry map, used to instantiate the theorems below on
concrete inputs. -/
def sampleMap : Map Nat Nat := ⟨[(1, 10), (2, 20)], by decide⟩

theorem keys_eq_map_aux (ord : List (K × V)) (acc : List K) :
    ord.foldl (fun result p => result ++ [p.1]) acc = acc ++ ord.map Prod.fst := by
  induction ord generalizing acc with
  | nil => simp
  | cons p rest ih => simp [ih]

theorem keys_eq_map (ord : List (K × V)) : Keys ord = ord.map Prod.fst := by
  simpa using keys_eq_map_aux ord []

theorem values_eq_map_aux (ord : List (K × V)) (acc : List V) :
    ord.foldl (fun result p => result ++ [p.2]) acc = acc ++ ord.map Prod.snd := by
  induction ord generalizing acc with
  | nil => simp
  | cons p rest ih => simp [ih]

theorem values_eq_map (ord : List (K × V)) : Values ord = ord.map Prod.snd := by
  simpa using values_eq_map_aux ord []

theorem mapLookup_eq_some_of_mem [DecidableEq K] {l : List (K × V)}
    (hnd : (l.map Prod.fst).Nodup) {p : K × V} (hm : p ∈ l) :
    mapLookup l p.1 = some p.2 := by
  induction l with
  | nil => cases hm
  | cons q rest ih =>
    simp only [List.map_cons, List.nodup_cons] at hnd
    rcases List.mem_cons.mp hm with h | h
    · subst h
      simp [mapLookup]
    · have hq : q.1 ≠ p.1 := by
        intro hx
        exact hnd.1 (hx ▸ List.mem_map_of_mem Prod.fst h)
      simp [mapLookup, hq, ih hnd.2 h]

theorem zip_map_fst_snd_eq (l : List (K × V)) :
    (l.map Prod.fst).zip (l.map Prod.snd) = l := by
  induction l with
  | nil => rfl
  | cons p rest ih => simp [ih]

/-- Number of occurrences of an entry in a list of entries; used to state
that `Range` invokes its callback exactly once per entry. -/
def occurrences [DecidableEq K] [DecidableEq V] (l : List (K × V))
    (p : K × V) : Nat :=
  (l.filter (fun q => decide (q = p))).length

theorem occurrences_eq_zero [DecidableEq K] [DecidableEq V]
    {l : List (K × V)} {p : K × V} (hp : p ∉ l) : occurrences l p = 0 := by
  induction l with
  | nil => rfl
  | cons q rest ih =>
    have hq : q ≠ p := fun hx => hp (hx ▸ List.mem_cons_self q rest)
    have hrest : p ∉ rest := fun hx => hp (List.mem_cons_of_mem q hx)
    simp [occurrences, List.filter, hq] at ih ⊢
    exact ih hrest

theorem occurrences_eq_one [DecidableEq K] [DecidableEq V]
    {l : List (K × V)} (hnd : l.Nodup) {p : K × V} (hp : p ∈ l) :
    occurrences l p = 1 := by
  induction l with
  | nil => cases hp
  | cons q rest ih =>
    rcases List.nodup_cons.mp hnd with ⟨hq, hrest⟩
    rcases List.mem_cons.mp hp with h | h
    · have hqp : q = p := h.symm
      subst hqp
      have h0 : occurrences rest q = 0 := occurrences_eq_zero hq
      simp [occurrences, List.filter] at h0 ⊢
      exact h0
    · have hqp : q ≠ p := fun hx => hq (hx ▸ h)
      simp [occurrences, List.filter, hqp] at ih ⊢
      simpa [occurrences, List.filter] using ih hrest h

theorem rangeVisits_eq_of_all_true (ord : List (K × V)) (action : K → V → Bool)
    (h : ∀ p ∈ ord, action p.1 p.2 = true) : RangeVisits ord action = ord := by
  induction ord with
  | nil => rfl
  | cons p rest ih =>
    simp only [RangeVisits, h p (List.mem_cons_self p rest), if_true]
    rw [ih (fun q hq => h q (List.mem_cons_of_mem p hq))]

theorem rangeVisits_dropLast_true (ord : List (K × V)) (action : K → V → Bool) :
    ∀ p ∈ (RangeVisits ord action).dropLast, action p.1 p.2 = true := by
  induction ord with
  | nil => intro p hp; cases hp
  | cons q rest ih =>
    intro p hp
    by_cases hq : action q.1 q.2 = true
    · rw [RangeVisits, if_pos hq] at hp
      cases hrest : RangeVisits rest action with
      | nil => rw [hrest] at hp; cases hp
      | cons r t =>
        rw [hrest, List.dropLast_cons₂] at hp
        rcases List.mem_cons.mp hp with h | h
        · exact h ▸ hq
        · exact ih p (hrest ▸ h)
    · rw [RangeVisits, if_neg hq] at hp
      cases hp

section SizeTrace

theorem toFinset_keys_mapInsert (l : List (K × V)) (k : K) (v : V) :
    ((mapInsert l k v).map Prod.fst).toFinset
      = insert k (l.map Prod.fst).toFinset := by
  ext a
  simp only [List.mem_toFinset, Finset.mem_insert, mem_keys_mapInsert]
  tauto

theorem mem_keys_mapDelete (l : List (K × V)) (k a : K)
    (hnd : (l.map Prod.fst).Nodup) :
    a ∈ (mapDelete l k).map Prod.fst ↔ a ∈ l.map Prod.fst ∧ a ≠ k := by
  induction l with
  | nil => simp [mapDelete]
  | cons p rest ih =>
    simp only [List.map_cons, List.nodup_cons] at hnd
    by_cases hp : p.1 = k
    · subst hp
      simp only [mapDelete, if_pos rfl, List.map_cons, List.mem_cons]
      constructor
      · intro h
        exact ⟨Or.inr h, fun hx => hnd.1 (hx ▸ h)⟩
      · rintro ⟨h | h, hne⟩
        · exact absurd h hne
        · exact h
    · simp only [mapDelete, if_neg hp, List.map_cons, List.mem_cons, ih hnd.2]
      constructor
      · rintro (h | ⟨h, hne⟩)
        · exact ⟨Or.inl h, fun hx => hp (h ▸ hx)⟩
        · exact ⟨Or.inr h, hne⟩
      · rintro ⟨h | h, hne⟩
        · exact Or.inl h
        · exact Or.inr ⟨h, hne⟩

theorem toFinset_keys_mapDelete (l : List (K × V)) (k : K)
    (hnd : (l.map Prod.fst).Nodup) :
    ((mapDelete l k).map Prod.fst).toFinset
      = ((l.map Prod.fst).toFinset).erase k := by
  ext a
  simp only [List.mem_toFinset, Finset.mem_erase, mem_keys_mapDelete l k a hnd]
  tauto

/-- A single-threaded trace step: the mutating operations the size claim
speaks about. -/
inductive Op (K V : Type) where
  | put (k : K) (v : V)
  | remove (k : K)

/-- Apply one trace operation to the map. -/
def step (m : Map K V) : Op K V → Map K V
  | Op.put k v => (Put m k v).2
  | Op.remove k => (Remove m k).2

/-- Run a trace of operations starting from `New()`. -/
def runOps (ops : List (Op K V)) : Map K V := ops.foldl step New

/-- Specification-side bookkeeping of the claim: the set of distinct keys
that have been `Put` and not subsequently `Remove`d. -/
def specStep (s : Finset K) : Op K V → Finset K
  | Op.put k _ => insert k s
  | Op.remove k => s.erase k

/-- The set of distinct keys `Put` and not subsequently `Remove`d over a
whole trace. -/
def specKeySet (ops : List (Op K V)) : Finset K := ops.foldl specStep ∅

theorem keys_toFinset_step (m : Map K V) (op : Op K V) :
    (((step m op).items.map Prod.fst).toFinset)
      = specStep ((m.items.map Prod.fst).toFinset) op := by
  cases op with
  | put k v =>
    simp [step, Put, specStep, toFinset_keys_mapInsert]
  | remove k =>
    cases hG : Get m k with
    | none =>
      have hk : k ∉ (m.items.map Prod.fst) := (mapLookup_eq_none_iff _ _).mp hG
      simp only [step, Remove, hG, specStep]
      rw [Finset.erase_eq_of_not_mem (by simpa using hk)]
    | some v =>
      simp [step, Remove, hG, specStep, toFinset_keys_mapDelete _ _ m.nodupKeys]

theorem runOps_keys_toFinset (ops : List (Op K V)) (m : Map K V) :
    (((ops.foldl step m).items.map Prod.fst).toFinset)
      = ops.foldl specStep ((m.items.map Prod.fst).toFinset) := by
  induction ops generalizing m with
  | nil => rfl
  | cons op rest ih =>
    simp only [List.foldl_cons]
    rw [ih, keys_toFinset_step]

end SizeTrace

/-- Claim C1: for every key not present in the map, `Get` returns
`found = false` (embedded as `none`); after `Put(K, V)`, `Get(K)` returns
`(V, true)` (embedded as `some V`); and `Put(K, V1)` followed by `Put(K, V2)`
leaves `Get(K) = (V2, true)` — last write wins under single-threaded
sequencing. -/
theorem C1_get_put (m : Map K V) (k : K) (v v1 v2 : V)
    (habs : k ∉ m.items.map Prod.fst) :
    Get m k = none
    ∧ Get (Put m k v).2 k = some v
    ∧ Get (Put (Put m k v1).2 k v2).2 k = some v2 := by
  refine ⟨(mapLookup_eq_none_iff _ _).mpr habs, ?_, ?_⟩
  · show mapLookup (mapInsert m.items k v) k = some v
    exact mapLookup_mapInsert_self _ _ _
  · show mapLookup (mapInsert (mapInsert m.items k v1) k v2) k = some v2
    exact mapLookup_mapInsert_self _ _ _

/-- Concrete instantiation of `C1_get_put` at `K = V = Nat`. -/
theorem C1_get_put_witness :
    ((5 : Nat) ∉ ((New : Map Nat Nat).items.map Prod.fst))
    ∧ (Get (New : Map Nat Nat) 5 = none
       ∧ Get (Put (New : Map Nat Nat) 5 7).2 5 = some 7
       ∧ Get (Put (Put (New : Map Nat Nat) 5 1).2 5 2).2 5 = some 2) :=
  ⟨by decide, C1_get_put New 5 7 1 2 (by decide)⟩

/-- Claim C2: in a single-threaded context, `ComputeIfAbsent(K, f)` on an
absent key invokes `f` exactly once (invocation counter `0` becomes `1`),
stores `f(K)` in the map, and returns `(f(K), computed = true)`; on a
present key it does not invoke `f` (counter stays `0`) and returns the
existing value with `computed = false`. -/
theorem C2_computeIfAbsent (m : Map K V) (k : K) (f : K → V) :
    (Get m k = none →
      ComputeIfAbsentTraced m k (counting f) 0
          = (((f k, true), (Put m k (f k)).2), 1)
      ∧ Get (ComputeIfAbsentTraced m k (counting f) 0).1.2 k = some (f k))
    ∧ (∀ v, Get m k = some v →
        ComputeIfAbsentTraced m k (counting f) 0 = (((v, false), m), 0)) := by
  constructor
  · intro h
    constructor
    · simp [ComputeIfAbsentTraced, h, counting, Put]
    · simp only [ComputeIfAbsentTraced, h, counting]
      show mapLookup (mapInsert m.items k (f k)) k = some (f k)
      exact mapLookup_mapInsert_self _ _ _
  · intro v h
    simp [ComputeIfAbsentTraced, h]

/-- Concrete instantiation of `C2_computeIfAbsent`: both the absent and the
present branch, with the invocation counter observed. -/
theorem C2_computeIfAbsent_witness :
    (Get (New : Map Nat Nat) 5 = none
     ∧ ComputeIfAbsentTraced (New : Map Nat Nat) 5 (counting (fun n => n + 1)) 0
         = (((6, true), (Put (New : Map Nat Nat) 5 6).2), 1))
    ∧ (Get sampleMap 1 = some 10
       ∧ ComputeIfAbsentTraced sampleMap 1 (counting (fun n => n + 1)) 0
           = (((10, false), sampleMap), 0)) :=
  ⟨⟨by decide, ((C2_computeIfAbsent New 5 (fun n => n + 1)).1 (by decide)).1⟩,
   ⟨by decide, (C2_computeIfAbsent sampleMap 1 (fun n => n + 1)).2 10 (by decide)⟩⟩

/-- Claim C3: `Remove(K)` on a present key returns `found = true` and
afterwards `Get(K)` returns `found = false`; `Remove(K)` on an absent key
returns `found = false` and leaves the map state unchanged. -/
theorem C3_remove (m : Map K V) (k : K) :
    (∀ v, Get m k = some v →
      (Remove m k).1 = true ∧ Get (Remove m k).2 k = none)
    ∧ (Get m k = none → Remove m k = (false, m)) := by
  constructor
  · intro v h
    refine ⟨by simp [Remove, h], ?_⟩
    simp only [Remove, h]
    show mapLookup (mapDelete m.items k) k = none
    exact mapLookup_mapDelete_self _ _ m.nodupKeys
  · intro h
    simp [Remove, h]

/-- Concrete instantiation of `C3_remove`: both the present and the absent
branch. -/
theorem C3_remove_witness :
    (Get sampleMap 1 = some 10
     ∧ (Remove sampleMap 1).1 = true ∧ Get (Remove sampleMap 1).2 1 = none)
    ∧ (Get (New : Map Nat Nat) 5 = none
       ∧ Remove (New : Map Nat Nat) 5 = (false, New)) :=
  ⟨⟨by decide, (C3_remove sampleMap 1).1 10 (by decide)⟩,
   ⟨by decide, (C3_remove New 5).2 (by decide)⟩⟩

/-- Claim C4: after `Clear()`, `Size()` is `0` and `Get(K)` returns
`found = false` for every key `K` that was present immediately before. -/
theorem C4_clear (m : Map K V) (k : K) (_hpres : Contains m k = true) :
    Size (Clear m) = 0 ∧ Get (Clear m) k = none :=
  ⟨rfl, rfl⟩

/-- Concrete instantiation of `C4_clear`. -/
theorem C4_clear_witness :
    Contains sampleMap 1 = true
    ∧ (Size (Clear sampleMap) = 0 ∧ Get (Clear sampleMap) 1 = none) :=
  ⟨by decide, C4_clear sampleMap 1 (by decide)⟩

/-- Claim C5: for every single-threaded trace of `Put`/`Remove` operations
starting from `New()`, `Size()` equals the number of distinct keys that have
been `Put` and not subsequently `Remove`d (an overwriting `Put` does not
increase the count, because the key set gains nothing). -/
theorem C5_size_trace (ops : List (Op K V)) :
    Size (runOps ops) = (specKeySet ops).card := by
  have h := runOps_keys_toFinset ops (New (K := K) (V := V))
  have h0 : (((New (K := K) (V := V)).items.map Prod.fst).toFinset)
      = (∅ : Finset K) := rfl
  rw [h0] at h
  calc Size (runOps ops) = (runOps ops).items.length := rfl
    _ = ((runOps ops).items.map Prod.fst).length := (List.length_map _ _).symm
    _ = ((runOps ops).items.map Prod.fst).toFinset.card :=
        (List.toFinset_card_of_nodup (runOps ops).nodupKeys).symm
    _ = (specKeySet ops).card := by
        rw [specKeySet, ← h]; rfl

/-- Claim C6, counterexample: Go map iteration order is unspecified and may
differ between the `Keys()` loop and the `Values()` loop; with the two-entry
map `{1 ↦ 10, 2 ↦ 20}` and the two legitimate iteration orders shown, the
two returned slices have equal length but the 0-th key (`1`) is not
associated with the 0-th value (`20`). -/
theorem C6_keys_values_counterexample :
    List.Perm [((1 : Nat), (10 : Nat)), (2, 20)] sampleMap.items
    ∧ List.Perm [((2 : Nat), (20 : Nat)), (1, 10)] sampleMap.items
    ∧ (Keys [((1 : Nat), (10 : Nat)), (2, 20)]).length
        = (Values [((2 : Nat), (20 : Nat)), (1, 10)]).length
    ∧ Get sampleMap ((Keys [((1 : Nat), (10 : Nat)), (2, 20)]).getD 0 0)
        ≠ some ((Values [((2 : Nat), (20 : Nat)), (1, 10)]).getD 0 0) := by
  decide

/-- Claim C6 as amended: for any iteration orders `o1` (of the `Keys()` call)
and `o2` (of the `Values()` call), the returned slices have equal length,
equal to `Size()`; and the element-wise correspondence between keys and
values holds for the key and value slices read off one single iteration
order — not across the two independent iterations. -/
theorem C6_keys_values_amended (m : Map K V) (o1 o2 : List (K × V))
    (h1 : o1.Perm m.items) (h2 : o2.Perm m.items) :
    (Keys o1).length = (Values o2).length
    ∧ (Keys o1).length = Size m
    ∧ ∀ p ∈ (Keys o1).zip (Values o1), Get m p.1 = some p.2 := by
  have hk : Keys o1 = o1.map Prod.fst := keys_eq_map o1
  have hv1 : Values o1 = o1.map Prod.snd := values_eq_map o1
  have hv2 : Values o2 = o2.map Prod.snd := values_eq_map o2
  refine ⟨?_, ?_, ?_⟩
  · rw [hk, hv2, List.length_map, List.length_map, h1.length_eq, h2.length_eq]
  · rw [hk, List.length_map, h1.length_eq]; rfl
  · intro p hp
    rw [hk, hv1, zip_map_fst_snd_eq] at hp
    exact mapLookup_eq_some_of_mem m.nodupKeys (h1.mem_iff.mp hp)

/-- Concrete instantiation of `C6_keys_values_amended`. -/
theorem C6_keys_values_amended_witness :
    List.Perm [((2 : Nat), (20 : Nat)), (1, 10)] sampleMap.items
    ∧ (Keys [((2 : Nat), (20 : Nat)), (1, 10)]).length = Size sampleMap :=
  ⟨by decide,
   (C6_keys_values_amended sampleMap [(2, 20), (1, 10)] [(1, 10), (2, 20)]
      (by decide) (by decide)).2.1⟩

/-- Claim C7: if `compFunction` fails (panics) when invoked by
`ComputeIfAbsent` on an absent key, the failure propagates unmodified to the
caller and no entry is stored — the map state is unchanged. -/
theorem C7_computeIfAbsent_error {E : Type} (m : Map K V) (k : K)
    (f : K → Except E V) (e : E) (habs : Get m k = none)
    (herr : f k = Except.error e) :
    ComputeIfAbsentExc m k f = (Except.error e, m) := by
  simp [ComputeIfAbsentExc, habs, herr]

/-- Concrete instantiation of `C7_computeIfAbsent_error`. -/
theorem C7_computeIfAbsent_error_witness :
    Get (New : Map Nat Nat) 5 = none
    ∧ ComputeIfAbsentExc (New : Map Nat Nat) 5
        (fun _ => (Except.error 42 : Except Nat Nat)) = (Except.error 42, New) :=
  ⟨by decide, C7_computeIfAbsent_error New 5 _ 42 (by decide) rfl⟩

/-- Claim C8: `Contains(K)` returns exactly the `found` component of
`Get(K)`; in particular `Contains` is `true` precisely when `Get` returns a
value. -/
theorem C8_contains_get (m : Map K V) (k : K) :
    Contains m k = (Get m k).isSome
    ∧ (Contains m k = true ↔ ∃ v, Get m k = some v) := by
  refine ⟨rfl, ?_⟩
  simp [Contains, Option.isSome_iff_exists]

/-- Claim C9: `Range(visit)` invokes `visit` on each entry and stops as soon
as `visit` returns `false`: with an always-`true` visitor every entry of the
map is visited exactly once, and every visited entry except possibly the
last one returned `true` (so after a `false` no further entry is visited). -/
theorem C9_range [DecidableEq V] (m : Map K V) (ord : List (K × V))
    (action : K → V → Bool) (hperm : ord.Perm m.items) :
    ((∀ p ∈ ord, action p.1 p.2 = true) →
      RangeVisits ord action = ord
      ∧ ∀ p ∈ m.items, occurrences (RangeVisits ord action) p = 1)
    ∧ (∀ p ∈ (RangeVisits ord action).dropLast, action p.1 p.2 = true) := by
  constructor
  · intro hall
    have hr := rangeVisits_eq_of_all_true ord action hall
    refine ⟨hr, ?_⟩
    intro p hp
    rw [hr]
    have hndo : ord.Nodup :=
      hperm.nodup_iff.mpr (List.Nodup.of_map Prod.fst m.nodupKeys)
    exact occurrences_eq_one hndo (hperm.mem_iff.mpr hp)
  · exact rangeVisits_dropLast_true ord action

/-- Concrete instantiation of `C9_range`. -/
theorem C9_range_witness :
    List.Perm [((1 : Nat), (10 : Nat)), (2, 20)] sampleMap.items
    ∧ (RangeVisits [((1 : Nat), (10 : Nat)), (2, 20)] (fun _ _ => true)
          = [(1, 10), (2, 20)]
       ∧ ∀ p ∈ sampleMap.items,
          occurrences (RangeVisits [((1 : Nat), (10 : Nat)), (2, 20)]
              (fun _ _ => true)) p = 1) :=
  ⟨by decide,
   (C9_range sampleMap [(1, 10), (2, 20)] (fun _ _ => true) (by decide)).1
     (by decide)⟩

/-- Claim C10: `Put(K, V)` and `Remove(K)` do not disturb the association of
any other key `K'`: its `Get` result is unchanged. -/
theorem C10_frame (m : Map K V) (k q : K) (v : V) (h : q ≠ k) :
    Get (Put m k v).2 q = Get m q ∧ Get (Remove m k).2 q = Get m q := by
  constructor
  · show mapLookup (mapInsert m.items k v) q = mapLookup m.items q
    exact mapLookup_mapInsert_ne m.items v h
  · cases hG : Get m k with
    | none => simp [Remove, hG]
    | some w =>
      simp only [Remove, hG]
      show mapLookup (mapDelete m.items k) q = mapLookup m.items q
      exact mapLookup_mapDelete_ne m.items h

/-- Concrete instantiation of `C10_frame`. -/
theorem C10_frame_witness :
    ((2 : Nat) ≠ 1)
    ∧ Get (Put sampleMap 1 99).2 2 = Get sampleMap 2
    ∧ Get (Remove sampleMap 1).2 2 = Get sampleMap 2 :=
  ⟨by decide, (C10_frame sampleMap 1 2 99 (by decide)).1,
   (C10_frame sampleMap 1 2 99 (by decide)).2⟩

end ConcurrentMap
